import Mathlib

/-!
Shallow embedding of `src/chess_moves.py` (pseudo-legal chess move generation).

Data representation:
  * a board cell is the two-character token of the source (`'x'`, `'wp'`, `'br'`, ...),
    modelled as `Option (Color × Kind)` (`none` = the `'x'` empty marker);
  * the board is the `[raw_input().split(',') for _ in range(8)]` value: a list of
    rows, each a list of cells, row 0 being rank 8 (top of the input);
  * python list subscription `l[i]` (including its negative-index wrap-around and
    the `IndexError` outside `[-len, len)`) is modelled by `pyIndex`;
  * a move string such as `'a3'`, `'a3 (Capture Pawn)'` or `'Promote on a8'` is
    modelled as a `Move` record: the position characters become the `column`/`row`
    fields, the `' (Capture <Name>)'` suffix becomes the `capture` field (the
    source's `'Capture' in move` substring tests are exactly `capture ≠ none`,
    since neither a position nor `'Promote on '` contains the word `Capture`),
    and the `'Promote on '` wrapper becomes the `promo` flag (the source's
    `promotion_row in space` substring test compares the digit character of the
    position, `'8'` ↔ row 0 and `'1'` ↔ row 7, since no piece name and no
    column letter is a digit);
  * a python `IndexError` is modelled by `none` in an `Option` result, threaded
    through every function that dereferences the board.
-/

inductive Color where
  | white
  | black
  deriving DecidableEq

inductive Kind where
  | pawn
  | rook
  | knight
  | bishop
  | queen
  | king
  deriving DecidableEq

/-- Model of a board cell token: `none` is the `'x'` marker, `some (c, k)` the
two-character `<color><kind>` token. -/
abbrev Square := Option (Color × Kind)

/-- Model of the parsed board: 8 rows (row 0 = rank 8) of 8 cells. -/
abbrev Board := List (List Square)

/-- Model of one move string of the source (see the module docstring for the
string ↔ record correspondence). -/
structure Move where
  column : Int
  row : Int
  capture : Option Kind
  promo : Bool
  deriving DecidableEq

/-- Model of the `Piece` object's input attributes (`color`, `name`, `column`,
`row`).  The `moves` attribute, computed in the constructor, is kept separate
as the function `find_moves` applied to the piece, per the source structure. -/
structure Piece where
  color : Color
  name : Kind
  column : Int
  row : Int
  deriving DecidableEq

/-- Python list subscription `l[i]`: a nonnegative index below the length reads
that element, a negative index wraps to `i + len l` when that is nonnegative,
and everything else raises `IndexError` (modelled as `none`). -/
def pyIndex {α : Type} (l : List α) (i : Int) : Option α :=
  if 0 ≤ i then l.get? i.toNat
  else if 0 ≤ i + l.length then l.get? (i + l.length).toNat
  else none

/-- The board dereference `board[row][column]` performed by `space_check` (the
spec's `squareAt`).  Note the row index is applied first, as in the source. -/
def squareAt (board : Board) (column row : Int) : Option Square :=
  match pyIndex board row with
  | none => none
  | some r => pyIndex r column

/-- Total variant of `squareAt`, used by the spec-side reference definitions
(the spec assumes every access is pre-checked to be in range). -/
def squareAtD (board : Board) (column row : Int) : Square :=
  (squareAt board column row).getD none

/-- Well-formedness of the parsed board: 8 rows of 8 cells (the source assumes
its input is formatted properly; see the docstring of `chess_moves.py`). -/
def Board.WF (b : Board) : Prop :=
  b.length = 8 ∧ ∀ r ∈ b, r.length = 8

instance (b : Board) : Decidable b.WF := by
  unfold Board.WF
  infer_instance

/-- Embedding of `space_check(moves, color, column, row)`: dereference the
board (an out-of-range dereference is the `none` result), emit a plain move on
the `'x'` marker (and clear `stop`), emit a capturing move on an opposing
occupant, emit nothing on an own-color occupant. -/
def space_check (board : Board) (moves : List Move) (color : Color)
    (column row : Int) : Option (List Move × Bool) :=
  match squareAt board column row with
  | none => none
  | some none => some (moves ++ [Move.mk column row none false], false)
  | some (some (oc, ok)) =>
    if oc ≠ color then some (moves ++ [Move.mk column row (some ok) false], true)
    else some (moves, true)

/-- Embedding of the `while` loop of `walk`.  The python loop guard is
`column in range(8) and row in range(8) and max_distance > 0`; the strictly
positive, strictly decreasing integer budget is carried as the `Nat` fuel
argument (`max_distance.toNat`), so one constructor layer of fuel is exactly
one loop iteration with `max_distance > 0`. -/
def walkLoop (board : Board) (color : Color) (column_step row_step : Int) :
    List Move → Int → Int → Nat → Bool → Option (List Move)
  | moves, _, _, 0, _ => some moves
  | moves, column, row, rest + 1, stop =>
    if 0 ≤ column ∧ column < 8 ∧ 0 ≤ row ∧ row < 8 then
      let column2 := column + column_step
      let row2 := row + row_step
      if column2 < 0 ∨ 8 ≤ column2 ∨ row2 < 0 ∨ 8 ≤ row2 ∨ stop = true then
        some moves
      else
        match space_check board moves color column2 row2 with
        | none => none
        | some (moves2, stop2) =>
          walkLoop board color column_step row_step moves2 column2 row2 rest stop2
    else
      some moves

/-- Embedding of `walk(piece, steps, max_distance)`. -/
def walk (board : Board) (piece : Piece) (steps : Int × Int)
    (max_distance : Int) : Option (List Move) :=
  walkLoop board piece.color steps.1 steps.2 [] piece.column piece.row
    max_distance.toNat false

/-- The `moves += walk(piece, path, d)` accumulation loop shared by
`find_moves` and `knight_moves`. -/
def walkConcat (board : Board) (piece : Piece) (max_distance : Int) :
    List (Int × Int) → Option (List Move)
  | [] => some []
  | p :: ps =>
    match walk board piece p max_distance, walkConcat board piece max_distance ps with
    | some ms, some rest => some (ms ++ rest)
    | _, _ => none

/-- The `cross_moves` direction letters `['U','R','D','L']` resolved through
`move_changes`. -/
def cross_moves : List (Int × Int) := [(0, -1), (1, 0), (0, 1), (-1, 0)]

/-- The `diagonal_moves` direction letters `['UR','DR','DL','UL']` resolved
through `move_changes`. -/
def diagonal_moves : List (Int × Int) := [(1, -1), (1, 1), (-1, 1), (-1, -1)]

/-- The `knight_options` offset table, verbatim from the source (note the
final entry duplicates `(-2,-1)` where the canonical table has `(-2,1)`). -/
def knight_options : List (Int × Int) :=
  [(-1, -2), (1, -2), (2, -1), (2, 1), (1, 2), (-1, 2), (-2, -1), (-2, -1)]

/-- Embedding of `knight_moves(piece)`. -/
def knight_moves (board : Board) (piece : Piece) : Option (List Move) :=
  walkConcat board piece 1 knight_options

/-- The promotion pass at the end of `pawn_moves`: the source wraps every move
string containing the promotion digit (`'8'` ↔ row 0 for white, `'1'` ↔ row 7
for black) in `'Promote on '`; on the record side this sets the `promo` flag
on every move whose target row is `promotion_row`. -/
def mark_promotions (promotion_row : Int) (moves : List Move) : List Move :=
  moves.map fun m =>
    if m.row = promotion_row then Move.mk m.column m.row m.capture true else m

/-- The `for path in capture_paths: moves += [move for move in walk(piece, path, 1)
if 'Capture' in move]` loop of `pawn_moves`. -/
def capture_walks (board : Board) (piece : Piece) :
    List (Int × Int) → Option (List Move)
  | [] => some []
  | p :: ps =>
    match walk board piece p 1, capture_walks board piece ps with
    | some ms, some rest => some (ms.filter (fun m => m.capture ≠ none) ++ rest)
    | _, _ => none

/-- Common body of `pawn_moves` after the color-dependent locals
(`basic_path`, `capture_paths`, `promotion_row`, `max_distance`) are set. -/
def pawn_go (board : Board) (piece : Piece) (basic_path : Int × Int)
    (capture_paths : List (Int × Int)) (promotion_row max_distance : Int) :
    Option (List Move) :=
  match walk board piece basic_path max_distance,
        capture_walks board piece capture_paths with
  | some fwd, some caps =>
    some (mark_promotions promotion_row (fwd.filter (fun m => m.capture = none) ++ caps))
  | _, _ => none

/-- Embedding of `pawn_moves(piece)`. -/
def pawn_moves (board : Board) (piece : Piece) : Option (List Move) :=
  if piece.color = Color.white then
    pawn_go board piece (0, -1) [(1, -1), (-1, -1)] 0
      (if piece.row = 6 then 2 else 1)
  else
    pawn_go board piece (0, 1) [(1, 1), (-1, 1)] 7
      (if piece.row = 1 then 2 else 1)

/-- Embedding of `find_moves(piece)`: the `move_options` dispatch for rook,
bishop, queen and king, then the pawn and knight special cases. -/
def find_moves (board : Board) (piece : Piece) : Option (List Move) :=
  match piece.name with
  | Kind.rook => walkConcat board piece 7 cross_moves
  | Kind.bishop => walkConcat board piece 7 diagonal_moves
  | Kind.queen => walkConcat board piece 7 (cross_moves ++ diagonal_moves)
  | Kind.king => walkConcat board piece 1 (cross_moves ++ diagonal_moves)
  | Kind.pawn => pawn_moves board piece
  | Kind.knight => knight_moves board piece

/-- The row iteration order of `find_pieces`: `range(8)`, reversed for black. -/
def row_order (color : Color) : List Nat :=
  if color = Color.black then (List.range 8).reverse else List.range 8

/-- The inner `for column_index in range(8)` loop of `find_pieces` over one
row (`row[column_index]` is a direct subscript, hence the `Option`). -/
def collect_cols (row : List Square) (color : Color) (row_index : Nat) :
    List Nat → Option (List Piece)
  | [] => some []
  | ci :: cis =>
    match row.get? ci, collect_cols row color row_index cis with
    | some cell, some rest =>
      match cell with
      | none => some rest
      | some (oc, k) =>
        if oc = color then some (Piece.mk color k ci row_index :: rest)
        else some rest
    | _, _ => none

/-- The outer `for row_index in order` loop of `find_pieces`
(`board[row_index]` is a direct subscript, hence the `Option`). -/
def collect_rows (board : Board) (color : Color) :
    List Nat → Option (List Piece)
  | [] => some []
  | ri :: ris =>
    match board.get? ri, collect_rows board color ris with
    | some row, some rest =>
      match collect_cols row color ri (List.range 8) with
      | some here => some (here ++ rest)
      | none => none
    | _, _ => none

/-- Embedding of `find_pieces(color)` (the global `board` made an explicit
parameter). -/
def find_pieces (board : Board) (color : Color) : Option (List Piece) :=
  collect_rows board color (row_order color)

/-! Concrete boards used to instantiate the theorems. -/

/-- Shorthand for the empty cell token `'x'`. -/
def xx : Square := none

def wp : Square := some (Color.white, Kind.pawn)

def wr : Square := some (Color.white, Kind.rook)

def wn : Square := some (Color.white, Kind.knight)

def wb : Square := some (Color.white, Kind.bishop)

def wq : Square := some (Color.white, Kind.queen)

def wk : Square := some (Color.white, Kind.king)

def bp : Square := some (Color.black, Kind.pawn)

def br : Square := some (Color.black, Kind.rook)

def bn : Square := some (Color.black, Kind.knight)

def bb : Square := some (Color.black, Kind.bishop)

def bq : Square := some (Color.black, Kind.queen)

def bk : Square := some (Color.black, Kind.king)

def emptyRow : List Square := [xx, xx, xx, xx, xx, xx, xx, xx]

def emptyBoard : Board :=
  [emptyRow, emptyRow, emptyRow, emptyRow, emptyRow, emptyRow, emptyRow, emptyRow]

/-- The standard chess starting position (row 0 = rank 8). -/
def stdBoard : Board :=
  [[br, bn, bb, bq, bk, bb, bn, br],
   [bp, bp, bp, bp, bp, bp, bp, bp],
   emptyRow, emptyRow, emptyRow, emptyRow,
   [wp, wp, wp, wp, wp, wp, wp, wp],
   [wr, wn, wb, wq, wk, wb, wn, wr]]

/-- Empty board except a white knight at column 4, row 4. -/
def knightBoardCenter : Board :=
  [emptyRow, emptyRow, emptyRow, emptyRow,
   [xx, xx, xx, xx, wn, xx, xx, xx],
   emptyRow, emptyRow, emptyRow]

/-- Empty board except a white knight at column 4, row 7. -/
def knightBoardEdge : Board :=
  [emptyRow, emptyRow, emptyRow, emptyRow, emptyRow, emptyRow, emptyRow,
   [xx, xx, xx, xx, wn, xx, xx, xx]]

/-- Spec §8 scenario 3: white rook at column 0, row 0 and black pawn at
column 0, row 5 on an otherwise empty board. -/
def rookBoard : Board :=
  [[wr, xx, xx, xx, xx, xx, xx, xx],
   emptyRow, emptyRow, emptyRow, emptyRow,
   [bp, xx, xx, xx, xx, xx, xx, xx],
   emptyRow, emptyRow]

/-- Empty board except a white pawn at column 0, row 1 (about to promote). -/
def promoBoard : Board :=
  [emptyRow,
   [wp, xx, xx, xx, xx, xx, xx, xx],
   emptyRow, emptyRow, emptyRow, emptyRow, emptyRow, emptyRow]

example : knight_moves knightBoardCenter (Piece.mk Color.white Kind.knight 4 4) =
    some [Move.mk 3 2 none false, Move.mk 5 2 none false, Move.mk 6 3 none false,
          Move.mk 6 5 none false, Move.mk 5 6 none false, Move.mk 3 6 none false,
          Move.mk 2 3 none false, Move.mk 2 3 none false] := by decide

example : find_moves stdBoard (Piece.mk Color.white Kind.knight 6 7) =
    some [Move.mk 5 5 none false, Move.mk 7 5 none false] := by decide

example : pawn_moves promoBoard (Piece.mk Color.white Kind.pawn 0 1) =
    some [Move.mk 0 0 none true] := by decide

/-! Spec-side reference definitions (each transcribed from the wording of the
specification, to be compared with the source embedding above). -/

/-- Reference walker, transcribed from spec §4.2: starting from the origin,
repeatedly add the direction vector; stop on leaving `[0,7]×[0,7]`, on budget
exhaustion, or at the first occupied square (emitting a capturing move first
when the occupant is of the opposing color). -/
def raySpec (board : Board) (color : Color) (column_step row_step : Int) :
    Int → Int → Nat → List Move
  | _, _, 0 => []
  | column, row, rest + 1 =>
    let column2 := column + column_step
    let row2 := row + row_step
    if 0 ≤ column2 ∧ column2 < 8 ∧ 0 ≤ row2 ∧ row2 < 8 then
      match squareAtD board column2 row2 with
      | none =>
        Move.mk column2 row2 none false ::
          raySpec board color column_step row_step column2 row2 rest
      | some (oc, ok) =>
        if oc ≠ color then [Move.mk column2 row2 (some ok) false] else []
    else []

/-- The mutable locals of one `walk` invocation, between two evaluations of
the `while` guard. -/
structure WalkState where
  moves : List Move
  column : Int
  row : Int
  max_distance : Int
  stop : Bool
  deriving DecidableEq

/-- One iteration of the `while` loop of `walk` as a step function on
`WalkState`: `Sum.inl` is the loop exiting (guard false, `break`, or an
`IndexError`), `Sum.inr` is the state at the next guard evaluation. -/
def walkStep (board : Board) (color : Color) (column_step row_step : Int)
    (s : WalkState) : Sum (Option (List Move)) WalkState :=
  if 0 ≤ s.column ∧ s.column < 8 ∧ 0 ≤ s.row ∧ s.row < 8 ∧ 0 < s.max_distance then
    let column2 := s.column + column_step
    let row2 := s.row + row_step
    if column2 < 0 ∨ 8 ≤ column2 ∨ row2 < 0 ∨ 8 ≤ row2 ∨ s.stop = true then
      Sum.inl (some s.moves)
    else
      match space_check board s.moves color column2 row2 with
      | none => Sum.inl none
      | some (moves2, stop2) =>
        Sum.inr (WalkState.mk moves2 column2 row2 (s.max_distance - 1) stop2)
  else
    Sum.inl (some s.moves)

/-- Iterate `walkStep` for at most `n` iterations (`Sum.inr` meaning the loop
has not yet exited after `n` iterations). -/
def walkIter (board : Board) (color : Color) (column_step row_step : Int) :
    Nat → WalkState → Sum (Option (List Move)) WalkState
  | 0, s => Sum.inr s
  | n + 1, s =>
    match walkStep board color column_step row_step s with
    | Sum.inl res => Sum.inl res
    | Sum.inr s2 => walkIter board color column_step row_step n s2

/-- The eight canonical L-shaped knight offsets, `(±1,±2)` and `(±2,±1)`, as
named by spec §4.3. -/
def canonical_knight_offsets : List (Int × Int) :=
  [(-1, -2), (1, -2), (2, -1), (2, 1), (1, 2), (-1, 2), (-2, -1), (-2, 1)]

/-- The classic knight-mobility table of spec §8: the number of the eight
canonical offsets that stay on the board from a given square. -/
def knight_mobility (column row : Int) : Nat :=
  (canonical_knight_offsets.filter fun p =>
    0 ≤ column + p.1 ∧ column + p.1 < 8 ∧ 0 ≤ row + p.2 ∧ row + p.2 < 8).length

/-- Reference collector, transcribed from spec §4.5: visit rows in `row_order`
(7 down to 0 for black, 0 up to 7 for white), columns 0 to 7 within a row, and
keep one `Piece` per occupant whose color matches. -/
def collectSpec (board : Board) (color : Color) : List Piece :=
  (row_order color).flatMap fun (ri : Nat) =>
    (List.range 8).filterMap fun (ci : Nat) =>
      match squareAtD board (ci : Int) (ri : Int) with
      | none => none
      | some (oc, k) =>
        if oc = color then some (Piece.mk color k (ci : Int) (ri : Int)) else none

/-! Helper lemmas. -/

lemma pyIndex_nonneg {α : Type} (l : List α) (i : Int) (h0 : 0 ≤ i) :
    pyIndex l i = l.get? i.toNat := by
  unfold pyIndex
  rw [if_pos h0]

lemma squareAt_some (board : Board) (c r : Int) (hWF : board.WF)
    (hc0 : 0 ≤ c) (hc : c < 8) (hr0 : 0 ≤ r) (hr : r < 8) :
    squareAt board c r = some (squareAtD board c r) := by
  obtain ⟨hlen, hrows⟩ := hWF
  have hrn : r.toNat < board.length := by omega
  have hone : pyIndex board r = some (board.get ⟨r.toNat, hrn⟩) := by
    rw [pyIndex_nonneg board r hr0]
    exact List.get?_eq_get hrn
  have hrowlen : (board.get ⟨r.toNat, hrn⟩).length = 8 :=
    hrows _ (List.get_mem board _ _)
  have hcn : c.toNat < (board.get ⟨r.toNat, hrn⟩).length := by omega
  have htwo : pyIndex (board.get ⟨r.toNat, hrn⟩) c =
      some ((board.get ⟨r.toNat, hrn⟩).get ⟨c.toNat, hcn⟩) := by
    rw [pyIndex_nonneg _ c hc0]
    exact List.get?_eq_get hcn
  unfold squareAtD squareAt
  rw [hone]
  simp only [List.get_eq_getElem] at htwo
  simp [htwo]

lemma walkLoop_stop (board : Board) (color : Color) (cs rs : Int) :
    ∀ (fuel : Nat) (moves : List Move) (column row : Int),
      walkLoop board color cs rs moves column row fuel true = some moves := by
  intro fuel moves column row
  cases fuel with
  | zero => rfl
  | succ n =>
    simp only [walkLoop]
    split
    · simp
    · rfl

lemma walkLoop_eq_ray (board : Board) (color : Color) (cs rs : Int)
    (hWF : board.WF) :
    ∀ (fuel : Nat) (column row : Int) (moves : List Move),
      0 ≤ column → column < 8 → 0 ≤ row → row < 8 →
      walkLoop board color cs rs moves column row fuel false =
        some (moves ++ raySpec board color cs rs column row fuel) := by
  intro fuel
  induction fuel with
  | zero =>
    intro column row moves _ _ _ _
    simp [walkLoop, raySpec]
  | succ n ih =>
    intro column row moves h1 h2 h3 h4
    simp only [walkLoop, raySpec]
    rw [if_pos ⟨h1, h2, h3, h4⟩]
    by_cases hin : 0 ≤ column + cs ∧ column + cs < 8 ∧ 0 ≤ row + rs ∧ row + rs < 8
    · have hcond : ¬(column + cs < 0 ∨ 8 ≤ column + cs ∨ row + rs < 0 ∨
          8 ≤ row + rs ∨ false = true) := by
        simp only [Bool.false_eq_true, or_false]
        omega
      rw [if_neg hcond, if_pos hin]
      have hsq := squareAt_some board (column + cs) (row + rs) hWF
        hin.1 hin.2.1 hin.2.2.1 hin.2.2.2
      rcases hD : squareAtD board (column + cs) (row + rs) with _ | ⟨oc, ok⟩
      · rw [hD] at hsq
        simp only [space_check, hsq]
        rw [ih (column + cs) (row + rs) _ hin.1 hin.2.1 hin.2.2.1 hin.2.2.2]
        simp
      · rw [hD] at hsq
        simp only [space_check, hsq]
        by_cases hoc : oc = color
        · simp [hoc, walkLoop_stop]
        · simp [hoc, walkLoop_stop]
    · have hcond : column + cs < 0 ∨ 8 ≤ column + cs ∨ row + rs < 0 ∨
          8 ≤ row + rs ∨ false = true := by
        simp only [Bool.false_eq_true, or_false]
        omega
      rw [if_pos hcond, if_neg hin]
      simp

/-- The square `(c, r)` lies on the 8×8 board, i.e. in `[0,7] × [0,7]`. -/
def inBoardRange (c r : Int) : Prop :=
  0 ≤ c ∧ c < 8 ∧ 0 ≤ r ∧ r < 8

instance (c r : Int) : Decidable (inBoardRange c r) := by
  unfold inBoardRange
  infer_instance

/-- Invariant of every move emitted by `space_check` (ignoring the promotion
flag): the target is on the board, a non-capturing move targets the `'x'`
marker, and a capturing move records an occupant of the opposing color. -/
def EmitCore (board : Board) (color : Color) (m : Move) : Prop :=
  inBoardRange m.column m.row ∧
  (m.capture = none → squareAt board m.column m.row = some none) ∧
  ∀ k, m.capture = some k →
    ∃ oc, squareAt board m.column m.row = some (some (oc, k)) ∧ oc ≠ color

lemma space_check_emit (board : Board) (moves : List Move) (color : Color)
    (c r : Int) (ms : List Move) (s : Bool)
    (h : space_check board moves color c r = some (ms, s)) :
    ∀ m ∈ ms, m ∈ moves ∨
      (m.column = c ∧ m.row = r ∧ m.promo = false ∧
        (m.capture = none → squareAt board c r = some none) ∧
        ∀ k, m.capture = some k →
          ∃ oc, squareAt board c r = some (some (oc, k)) ∧ oc ≠ color) := by
  intro m hm
  unfold space_check at h
  split at h
  · exact Option.noConfusion h
  · rename_i hsq
    simp only [Option.some.injEq, Prod.mk.injEq] at h
    obtain ⟨hms, -⟩ := h
    subst hms
    rcases List.mem_append.mp hm with h0 | h1
    · exact Or.inl h0
    · right
      rcases List.mem_singleton.mp h1 with rfl
      refine ⟨rfl, rfl, rfl, fun _ => hsq, fun k hk => ?_⟩
      exact Option.noConfusion hk
  · rename_i oc ok hsq
    split at h
    · rename_i hoc
      simp only [Option.some.injEq, Prod.mk.injEq] at h
      obtain ⟨hms, -⟩ := h
      subst hms
      rcases List.mem_append.mp hm with h0 | h1
      · exact Or.inl h0
      · right
        rcases List.mem_singleton.mp h1 with rfl
        refine ⟨rfl, rfl, rfl, fun hx => Option.noConfusion hx, fun k hk => ?_⟩
        simp only [Option.some.injEq] at hk
        subst hk
        exact ⟨oc, hsq, hoc⟩
    · simp only [Option.some.injEq, Prod.mk.injEq] at h
      obtain ⟨hms, -⟩ := h
      subst hms
      exact Or.inl hm

lemma walkLoop_emit (board : Board) (color : Color) (cs rs : Int) :
    ∀ (fuel : Nat) (moves : List Move) (column row : Int) (stop : Bool)
      (ms : List Move),
      walkLoop board color cs rs moves column row fuel stop = some ms →
      ∀ m ∈ ms, m ∈ moves ∨ (EmitCore board color m ∧ m.promo = false) := by
  intro fuel
  induction fuel with
  | zero =>
    intro moves column row stop ms h m hm
    simp only [walkLoop, Option.some.injEq] at h
    subst h
    exact Or.inl hm
  | succ n ih =>
    intro moves column row stop ms h m hm
    simp only [walkLoop] at h
    split at h
    · split at h
      · simp only [Option.some.injEq] at h
        subst h
        exact Or.inl hm
      · rename_i hcond
        split at h
        · exact Option.noConfusion h
        · rename_i moves2 stop2 hsc
          rcases ih moves2 (column + cs) (row + rs) stop2 ms h m hm with hin | hemit
          · rcases space_check_emit board moves color (column + cs) (row + rs)
                moves2 stop2 hsc m hin with h0 | ⟨hc, hr, hp, hnone, hcap⟩
            · exact Or.inl h0
            · right
              refine ⟨⟨?_, ?_⟩, hp⟩
              · rw [hc, hr]
                unfold inBoardRange
                omega
              · rw [hc, hr]
                exact ⟨hnone, hcap⟩
          · exact Or.inr hemit
    · simp only [Option.some.injEq] at h
      subst h
      exact Or.inl hm

lemma walk_emit (board : Board) (piece : Piece) (steps : Int × Int)
    (max_distance : Int) (ms : List Move)
    (h : walk board piece steps max_distance = some ms) :
    ∀ m ∈ ms, EmitCore board piece.color m ∧ m.promo = false := by
  intro m hm
  unfold walk at h
  rcases walkLoop_emit board piece.color steps.1 steps.2 max_distance.toNat []
      piece.column piece.row false ms h m hm with h0 | h1
  · exact absurd h0 (List.not_mem_nil m)
  · exact h1

lemma walkConcat_emit (board : Board) (piece : Piece) (max_distance : Int) :
    ∀ (paths : List (Int × Int)) (ms : List Move),
      walkConcat board piece max_distance paths = some ms →
      ∀ m ∈ ms, EmitCore board piece.color m ∧ m.promo = false := by
  intro paths
  induction paths with
  | nil =>
    intro ms h m hm
    simp only [walkConcat, Option.some.injEq] at h
    subst h
    exact absurd hm (List.not_mem_nil m)
  | cons p ps ih =>
    intro ms h m hm
    simp only [walkConcat] at h
    split at h
    · rename_i here rest hwalk hrest
      simp only [Option.some.injEq] at h
      subst h
      rcases List.mem_append.mp hm with h0 | h1
      · exact walk_emit board piece p max_distance here hwalk m h0
      · exact ih rest hrest m h1
    · exact Option.noConfusion h

lemma capture_walks_emit (board : Board) (piece : Piece) :
    ∀ (paths : List (Int × Int)) (ms : List Move),
      capture_walks board piece paths = some ms →
      ∀ m ∈ ms, EmitCore board piece.color m ∧ m.promo = false := by
  intro paths
  induction paths with
  | nil =>
    intro ms h m hm
    simp only [capture_walks, Option.some.injEq] at h
    subst h
    exact absurd hm (List.not_mem_nil m)
  | cons p ps ih =>
    intro ms h m hm
    simp only [capture_walks] at h
    split at h
    · rename_i here rest hwalk hrest
      simp only [Option.some.injEq] at h
      subst h
      rcases List.mem_append.mp hm with h0 | h1
      · exact walk_emit board piece p 1 here hwalk m (List.mem_of_mem_filter h0)
      · exact ih rest hrest m h1
    · exact Option.noConfusion h

lemma pawn_go_emit (board : Board) (piece : Piece) (basic_path : Int × Int)
    (capture_paths : List (Int × Int)) (promotion_row max_distance : Int)
    (ms : List Move)
    (h : pawn_go board piece basic_path capture_paths promotion_row
      max_distance = some ms) :
    ∀ m ∈ ms, EmitCore board piece.color m ∧
      (m.promo = true ↔ m.row = promotion_row) := by
  intro m hm
  unfold pawn_go at h
  split at h
  · rename_i fwd caps hfwd hcaps
    simp only [Option.some.injEq] at h
    subst h
    rcases List.mem_map.mp hm with ⟨m0, hm0, hmark⟩
    have hbase : EmitCore board piece.color m0 ∧ m0.promo = false := by
      rcases List.mem_append.mp hm0 with h0 | h1
      · exact walk_emit board piece basic_path max_distance fwd hfwd m0
          (List.mem_of_mem_filter h0)
      · exact capture_walks_emit board piece capture_paths caps hcaps m0 h1
    by_cases hpr : m0.row = promotion_row
    · rw [if_pos hpr] at hmark
      subst hmark
      exact ⟨hbase.1, by simp [hpr]⟩
    · rw [if_neg hpr] at hmark
      subst hmark
      refine ⟨hbase.1, ?_⟩
      rw [hbase.2]
      simp [hpr]
  · exact Option.noConfusion h

lemma find_moves_emit (board : Board) (piece : Piece) (ms : List Move)
    (h : find_moves board piece = some ms) :
    ∀ m ∈ ms, EmitCore board piece.color m := by
  intro m hm
  unfold find_moves at h
  split at h
  · exact (walkConcat_emit board piece 7 cross_moves ms h m hm).1
  · exact (walkConcat_emit board piece 7 diagonal_moves ms h m hm).1
  · exact (walkConcat_emit board piece 7 (cross_moves ++ diagonal_moves) ms h m hm).1
  · exact (walkConcat_emit board piece 1 (cross_moves ++ diagonal_moves) ms h m hm).1
  · unfold pawn_moves at h
    split at h
    · exact (pawn_go_emit board piece _ _ _ _ ms h m hm).1
    · exact (pawn_go_emit board piece _ _ _ _ ms h m hm).1
  · unfold knight_moves at h
    exact (walkConcat_emit board piece 1 knight_options ms h m hm).1

/-! Claim theorems. -/

/-- C1 (refuting evidence, code bug): the knight rule does not try each of the
eight canonical L-shaped offsets exactly once.  The source's `knight_options`
table lists `(-2,-1)` twice and never lists the canonical offset `(-2,1)`; on
an otherwise empty board a knight at column 4, row 4 therefore gets the move
to `(2,3)` twice and never gets the canonical knight move to `(2,5)`. -/
theorem knight_offsets_defect :
    knight_options.count ((-2 : Int), (-1 : Int)) = 2 ∧
    ((-2 : Int), (1 : Int)) ∈ canonical_knight_offsets ∧
    ((-2 : Int), (1 : Int)) ∉ knight_options ∧
    knight_moves knightBoardCenter (Piece.mk Color.white Kind.knight 4 4) =
      some [Move.mk 3 2 none false, Move.mk 5 2 none false, Move.mk 6 3 none false,
            Move.mk 6 5 none false, Move.mk 5 6 none false, Move.mk 3 6 none false,
            Move.mk 2 3 none false, Move.mk 2 3 none false] ∧
    Move.mk 2 5 none false ∉
      [Move.mk 3 2 none false, Move.mk 5 2 none false, Move.mk 6 3 none false,
       Move.mk 6 5 none false, Move.mk 5 6 none false, Move.mk 3 6 none false,
       Move.mk 2 3 none false, Move.mk 2 3 none false] := by
  decide

/-- C2 (refuting evidence, code bug): a knight on column 4, row 7 of an
otherwise empty board is given 5 moves (the duplicated `(-2,-1)` offset emits
the move to `(2,6)` twice), while the classic knight-mobility table gives 4
for that square, and 5 is not among the lengths 2, 3, 4, 6, 8 the claim
allows. -/
theorem knight_mobility_defect :
    knight_moves knightBoardEdge (Piece.mk Color.white Kind.knight 4 7) =
      some [Move.mk 3 5 none false, Move.mk 5 5 none false, Move.mk 6 6 none false,
            Move.mk 2 6 none false, Move.mk 2 6 none false] ∧
    (knight_moves knightBoardEdge (Piece.mk Color.white Kind.knight 4 7)).map
        List.length = some 5 ∧
    knight_mobility 4 7 = 4 ∧
    (5 : Nat) ∉ [2, 3, 4, 6, 8] := by
  decide

/-- C3: for every well-formed board, every piece on the board and every
direction vector and integer step budget, the Ray Walker `walk` produces
exactly the move sequence described by spec §4.2 (`raySpec`): successive
squares along the direction, a non-capturing move then continue on an empty
square, a capturing move recording the captured kind then stop on an opposing
occupant, stop without a move on an own-color occupant, stop on leaving
`[0,7]×[0,7]` or on exhausting the budget. -/
theorem walk_follows_ray_spec (board : Board) (piece : Piece)
    (dir : Int × Int) (maxSteps : Int) (hWF : board.WF)
    (hc0 : 0 ≤ piece.column) (hc : piece.column < 8)
    (hr0 : 0 ≤ piece.row) (hr : piece.row < 8) :
    walk board piece dir maxSteps =
      some (raySpec board piece.color dir.1 dir.2 piece.column piece.row
        maxSteps.toNat) := by
  unfold walk
  rw [walkLoop_eq_ray board piece.color dir.1 dir.2 hWF maxSteps.toNat
    piece.column piece.row [] hc0 hc hr0 hr]
  simp

/-- Witness for C3 at spec §8 scenario 3: the white rook at `(0,0)` walking
downward on `rookBoard`. -/
theorem walk_follows_ray_spec_witness :
    Board.WF rookBoard ∧
    walk rookBoard (Piece.mk Color.white Kind.rook 0 0) (0, 1) 7 =
      some (raySpec rookBoard Color.white 0 1 0 0 (7 : Int).toNat) :=
  ⟨by decide, walk_follows_ray_spec rookBoard (Piece.mk Color.white Kind.rook 0 0)
    (0, 1) 7 (by decide) (by decide) (by decide) (by decide) (by decide)⟩

/-- Promotion row per color, as encoded by the `promotion_row` digit of
`pawn_moves` (`'8'` is the digit of row 0, `'1'` the digit of row 7). -/
def promotion_target_row (c : Color) : Int :=
  if c = Color.white then 0 else 7

/-- C5: a pawn move is flagged as a promotion if and only if its destination
row is 0 for a white pawn and 7 for a black pawn. -/
theorem pawn_promotion_iff (board : Board) (piece : Piece) (ms : List Move)
    (h : pawn_moves board piece = some ms) :
    ∀ m ∈ ms, (m.promo = true ↔ m.row = promotion_target_row piece.color) := by
  intro m hm
  unfold pawn_moves at h
  split at h
  · rename_i hw
    have hiff := (pawn_go_emit board piece _ _ _ _ ms h m hm).2
    unfold promotion_target_row
    rwa [if_pos hw]
  · rename_i hw
    have hiff := (pawn_go_emit board piece _ _ _ _ ms h m hm).2
    unfold promotion_target_row
    rwa [if_neg hw]

/-- Witness for C5: the white pawn of `promoBoard` one step from promotion. -/
theorem pawn_promotion_iff_witness :
    pawn_moves promoBoard (Piece.mk Color.white Kind.pawn 0 1) =
      some [Move.mk 0 0 none true] ∧
    ∀ m ∈ [Move.mk 0 0 none true],
      (m.promo = true ↔ m.row = promotion_target_row Color.white) :=
  ⟨by decide, pawn_promotion_iff promoBoard (Piece.mk Color.white Kind.pawn 0 1)
    [Move.mk 0 0 none true] (by decide)⟩

/-- C7: every move emitted by `find_moves` targets a square inside
`[0,7]×[0,7]`, and the board dereference at that target therefore succeeds
(it is never the `IndexError` case). -/
theorem moves_within_board (board : Board) (piece : Piece) (ms : List Move)
    (h : find_moves board piece = some ms) :
    ∀ m ∈ ms, inBoardRange m.column m.row ∧
      squareAt board m.column m.row ≠ none := by
  intro m hm
  obtain ⟨hin, hnone, hcap⟩ := find_moves_emit board piece ms h m hm
  refine ⟨hin, ?_⟩
  rcases hc : m.capture with _ | k
  · rw [hnone hc]
    simp
  · obtain ⟨oc, hsq, -⟩ := hcap k hc
    rw [hsq]
    simp

/-- Witness for C7: the white knight at g1 on the starting board. -/
theorem moves_within_board_witness :
    find_moves stdBoard (Piece.mk Color.white Kind.knight 6 7) =
      some [Move.mk 5 5 none false, Move.mk 7 5 none false] ∧
    (inBoardRange 5 5 ∧ squareAt stdBoard 5 5 ≠ none) :=
  ⟨by decide,
    moves_within_board stdBoard (Piece.mk Color.white Kind.knight 6 7)
      [Move.mk 5 5 none false, Move.mk 7 5 none false] (by decide)
      (Move.mk 5 5 none false) (by decide)⟩

/-- C8: no capturing move emitted by `find_moves` targets a square occupied
by a piece of the moving piece's own color. -/
theorem capture_never_own_color (board : Board) (piece : Piece) (ms : List Move)
    (h : find_moves board piece = some ms) :
    ∀ m ∈ ms, m.capture ≠ none →
      ¬∃ k, squareAt board m.column m.row = some (some (piece.color, k)) := by
  intro m hm hcapne hex
  obtain ⟨k, hk⟩ := hex
  obtain ⟨-, -, hcap⟩ := find_moves_emit board piece ms h m hm
  rcases hc : m.capture with _ | k0
  · exact hcapne hc
  · obtain ⟨oc, hsq, hne⟩ := hcap k0 hc
    rw [hsq] at hk
    simp only [Option.some.injEq, Prod.mk.injEq] at hk
    exact hne hk.1

/-- Witness for C8 at spec §8 scenario 3: the white rook capturing the black
pawn at `(0,5)` on `rookBoard`. -/
theorem capture_never_own_color_witness :
    find_moves rookBoard (Piece.mk Color.white Kind.rook 0 0) =
      some [Move.mk 1 0 none false, Move.mk 2 0 none false, Move.mk 3 0 none false,
            Move.mk 4 0 none false, Move.mk 5 0 none false, Move.mk 6 0 none false,
            Move.mk 7 0 none false, Move.mk 0 1 none false, Move.mk 0 2 none false,
            Move.mk 0 3 none false, Move.mk 0 4 none false,
            Move.mk 0 5 (some Kind.pawn) false] ∧
    ¬∃ k, squareAt rookBoard 0 5 = some (some (Color.white, k)) :=
  ⟨by decide,
    capture_never_own_color rookBoard (Piece.mk Color.white Kind.rook 0 0)
      [Move.mk 1 0 none false, Move.mk 2 0 none false, Move.mk 3 0 none false,
       Move.mk 4 0 none false, Move.mk 5 0 none false, Move.mk 6 0 none false,
       Move.mk 7 0 none false, Move.mk 0 1 none false, Move.mk 0 2 none false,
       Move.mk 0 3 none false, Move.mk 0 4 none false,
       Move.mk 0 5 (some Kind.pawn) false] (by decide)
      (Move.mk 0 5 (some Kind.pawn) false) (by decide) (by decide)⟩

lemma pyIndex_eight_none {α : Type} (l : List α) (hlen : l.length = 8)
    (i : Int) : pyIndex l i = none ↔ (i < -8 ∨ 7 < i) := by
  unfold pyIndex
  by_cases h0 : 0 ≤ i
  · rw [if_pos h0, List.get?_eq_none]
    omega
  · rw [if_neg h0]
    by_cases h1 : 0 ≤ i + l.length
    · rw [if_pos h1, List.get?_eq_none]
      omega
    · rw [if_neg h1]
      simp only [true_iff]
      omega

lemma pyIndex_eight_mod {α : Type} (l : List α) (hlen : l.length = 8)
    (i : Int) (h1 : -8 ≤ i) (h2 : i ≤ 7) :
    pyIndex l i = pyIndex l (i % 8) := by
  unfold pyIndex
  by_cases h0 : 0 ≤ i
  · have hmod : i % 8 = i := by omega
    rw [hmod]
  · rw [if_neg h0, if_pos (by omega), if_pos (by omega : 0 ≤ i % 8)]
    have hmod : (i + l.length).toNat = (i % 8).toNat := by omega
    rw [hmod]

lemma pyIndex_mem {α : Type} {l : List α} {i : Int} {a : α}
    (h : pyIndex l i = some a) : a ∈ l := by
  unfold pyIndex at h
  split at h
  · exact List.get?_mem h
  · split at h
    · exact List.get?_mem h
    · exact Option.noConfusion h

/-- C6 (counterexample): the coordinate `(0, -1)` has its row outside
`[0,7]`, yet dereferencing it on the starting board does not fail — Python's
negative indexing silently maps it to the valid square `(0, 7)` and returns
that square's content (the white rook on a1). -/
theorem squareAt_out_of_range_cex :
    ((-1 : Int) < 0 ∨ 7 < (-1 : Int)) ∧
    squareAt stdBoard 0 (-1) = some (some (Color.white, Kind.rook)) ∧
    squareAt stdBoard 0 7 = some (some (Color.white, Kind.rook)) := by
  decide

/-- C6 (amended): on a well-formed board, the dereference
`board[row][column]` fails exactly when the column or the row lies outside
`[-8,7]`; a coordinate whose components lie in `[-8,7]` — including the
out-of-range values `[-8,-1]` — is silently mapped by Python's negative
indexing to the valid square at `(column mod 8, row mod 8)`. -/
theorem squareAt_bounds_amended (board : Board) (c r : Int) (hWF : board.WF) :
    (squareAt board c r = none ↔ (c < -8 ∨ 7 < c ∨ r < -8 ∨ 7 < r)) ∧
    (-8 ≤ c → c ≤ 7 → -8 ≤ r → r ≤ 7 →
      squareAt board c r = squareAt board (c % 8) (r % 8)) := by
  obtain ⟨hlen, hrows⟩ := hWF
  constructor
  · by_cases hr : r < -8 ∨ 7 < r
    · have hnone : pyIndex board r = none := (pyIndex_eight_none board hlen r).mpr hr
      unfold squareAt
      rw [hnone]
      simp only [true_iff]
      omega
    · have hsome : pyIndex board r ≠ none := fun hn =>
        hr ((pyIndex_eight_none board hlen r).mp hn)
      obtain ⟨row, hrow⟩ := Option.ne_none_iff_exists.mp hsome
      unfold squareAt
      rw [← hrow]
      rw [pyIndex_eight_none row (hrows row (pyIndex_mem hrow.symm)) c]
      omega
  · intro hc1 hc2 hr1 hr2
    have hrowmod : pyIndex board r = pyIndex board (r % 8) :=
      pyIndex_eight_mod board hlen r hr1 hr2
    unfold squareAt
    rw [← hrowmod]
    cases hrow : pyIndex board r with
    | none => rfl
    | some row =>
      exact pyIndex_eight_mod row (hrows row (pyIndex_mem hrow)) c hc1 hc2

/-- Witness for C6's amended theorem at the out-of-range coordinate
`(-3, -1)` on the starting board. -/
theorem squareAt_bounds_amended_witness :
    Board.WF stdBoard ∧
    (squareAt stdBoard (-3) (-1) = none ↔
      ((-3 : Int) < -8 ∨ 7 < (-3 : Int) ∨ (-1 : Int) < -8 ∨ 7 < (-1 : Int))) ∧
    squareAt stdBoard (-3) (-1) =
      squareAt stdBoard ((-3 : Int) % 8) ((-1 : Int) % 8) :=
  ⟨by decide, (squareAt_bounds_amended stdBoard (-3) (-1) (by decide)).1,
    (squareAt_bounds_amended stdBoard (-3) (-1) (by decide)).2
      (by decide) (by decide) (by decide) (by decide)⟩

lemma walkStep_decrease (board : Board) (color : Color) (cs rs : Int)
    (s s2 : WalkState) (h : walkStep board color cs rs s = Sum.inr s2) :
    s2.max_distance < s.max_distance := by
  simp only [walkStep] at h
  split at h
  · split at h
    · exact Sum.noConfusion h
    · split at h
      · exact Sum.noConfusion h
      · rename_i hguard _ _ _ _
        simp only [Sum.inr.injEq] at h
        subst h
        show s.max_distance - 1 < s.max_distance
        omega
  · exact Sum.noConfusion h

lemma walkIter_eq_walkLoop (board : Board) (color : Color) (cs rs : Int) :
    ∀ (n : Nat) (s : WalkState), s.max_distance.toNat = n →
      walkIter board color cs rs (n + 1) s =
        Sum.inl (walkLoop board color cs rs s.moves s.column s.row n s.stop) := by
  intro n
  induction n with
  | zero =>
    intro s hn
    have hstep : walkStep board color cs rs s = Sum.inl (some s.moves) := by
      simp only [walkStep]
      rw [if_neg (by omega)]
    simp only [walkIter, hstep, walkLoop]
  | succ n ih =>
    intro s hn
    simp only [walkIter, walkLoop]
    by_cases hpos : 0 ≤ s.column ∧ s.column < 8 ∧ 0 ≤ s.row ∧ s.row < 8
    · rw [if_pos hpos]
      simp only [walkStep]
      rw [if_pos ⟨hpos.1, hpos.2.1, hpos.2.2.1, hpos.2.2.2, by omega⟩]
      by_cases hbrk : s.column + cs < 0 ∨ 8 ≤ s.column + cs ∨ s.row + rs < 0 ∨
          8 ≤ s.row + rs ∨ s.stop = true
      · rw [if_pos hbrk, if_pos hbrk]
      · rw [if_neg hbrk, if_neg hbrk]
        cases hsc : space_check board s.moves color (s.column + cs) (s.row + rs) with
        | none => rfl
        | some p =>
          obtain ⟨moves2, stop2⟩ := p
          exact ih (WalkState.mk moves2 (s.column + cs) (s.row + rs)
            (s.max_distance - 1) stop2) (by simp; omega)
    · rw [if_neg hpos]
      have hstep : walkStep board color cs rs s = Sum.inl (some s.moves) := by
        simp only [walkStep]
        rw [if_neg (by tauto)]
      rw [hstep]

/-- C10: the `while` loop of `walk` terminates for every start state and
every integer `max_distance`, including zero and negative values: the guard
requires `max_distance > 0` and the body decrements it, so iterating the loop
body (`walkStep`) exits (`Sum.inl`) within `max_distance.toNat + 1` guard
evaluations, and the value it exits with is the total function `walkLoop` —
move generation is a total computation. -/
theorem walk_loop_terminates (board : Board) (color : Color) (cs rs : Int)
    (moves : List Move) (column row max_distance : Int) (stop : Bool) :
    (∀ s2, walkStep board color cs rs
        (WalkState.mk moves column row max_distance stop) = Sum.inr s2 →
      s2.max_distance < max_distance) ∧
    walkIter board color cs rs (max_distance.toNat + 1)
        (WalkState.mk moves column row max_distance stop) =
      Sum.inl (walkLoop board color cs rs moves column row
        max_distance.toNat stop) :=
  ⟨fun s2 h => walkStep_decrease board color cs rs
      (WalkState.mk moves column row max_distance stop) s2 h,
    walkIter_eq_walkLoop board color cs rs max_distance.toNat
      (WalkState.mk moves column row max_distance stop) rfl⟩

/-- Witness for C10: three downward steps from `(0,0)` on the empty board;
the first loop iteration hands back a state whose budget dropped from 3 to 2,
and the iterated step function exits with the `walkLoop` value. -/
theorem walk_loop_terminates_witness :
    (WalkState.mk [Move.mk 0 1 none false] 0 1 2 false).max_distance < 3 ∧
    walkIter emptyBoard Color.white 0 1 ((3 : Int).toNat + 1)
        (WalkState.mk [] 0 0 3 false) =
      Sum.inl (walkLoop emptyBoard Color.white 0 1 [] 0 0 (3 : Int).toNat false) := by
  obtain ⟨hdec, hiter⟩ :=
    walk_loop_terminates emptyBoard Color.white 0 1 [] 0 0 3 false
  exact ⟨hdec (WalkState.mk [Move.mk 0 1 none false] 0 1 2 false) (by decide), hiter⟩

lemma squareAt_natCast (board : Board) (ci ri : Nat) :
    squareAt board (ci : Int) (ri : Int) =
      match board.get? ri with
      | none => none
      | some row => row.get? ci := by
  unfold squareAt
  rw [pyIndex_nonneg board (ri : Int) (Int.natCast_nonneg ri)]
  rw [Int.toNat_natCast]
  cases hb : board.get? ri with
  | none => rfl
  | some row =>
    show pyIndex row (ci : Int) = row.get? ci
    rw [pyIndex_nonneg row (ci : Int) (Int.natCast_nonneg ci), Int.toNat_natCast]

lemma collect_cols_eq (row : List Square) (color : Color) (ri : Nat)
    (hlen : row.length = 8) :
    ∀ cis : List Nat, (∀ ci ∈ cis, ci < 8) →
      collect_cols row color ri cis =
        some (cis.filterMap fun (ci : Nat) =>
          match (row.get? ci).getD none with
          | none => none
          | some (oc, k) =>
            if oc = color then some (Piece.mk color k ci ri) else none) := by
  intro cis
  induction cis with
  | nil =>
    intro _
    rfl
  | cons ci cis ih =>
    intro hall
    have hci : ci < 8 := hall ci (by simp)
    have hlt : ci < row.length := by omega
    have hget : row.get? ci = some (row.get ⟨ci, hlt⟩) := List.get?_eq_get hlt
    simp only [collect_cols, hget, ih (fun c hc => hall c (by simp [hc])),
      List.filterMap_cons]
    cases hcell : row.get ⟨ci, hlt⟩ with
    | none => simp
    | some p =>
      obtain ⟨oc, k⟩ := p
      by_cases hoc : oc = color
      · simp [hoc]
      · simp [hoc]

lemma collect_rows_eq (board : Board) (color : Color) (hWF : board.WF) :
    ∀ ris : List Nat, (∀ ri ∈ ris, ri < 8) →
      collect_rows board color ris =
        some (ris.flatMap fun (ri : Nat) =>
          (List.range 8).filterMap fun (ci : Nat) =>
            match squareAtD board (ci : Int) (ri : Int) with
            | none => none
            | some (oc, k) =>
              if oc = color then some (Piece.mk color k ci ri) else none) := by
  obtain ⟨hlen, hrows⟩ := hWF
  intro ris
  induction ris with
  | nil =>
    intro _
    rfl
  | cons ri ris ih =>
    intro hall
    have hri : ri < 8 := hall ri (by simp)
    have hlt : ri < board.length := by omega
    have hget : board.get? ri = some (board.get ⟨ri, hlt⟩) := List.get?_eq_get hlt
    have hrowlen : (board.get ⟨ri, hlt⟩).length = 8 :=
      hrows _ (List.get_mem board _ _)
    have hcols := collect_cols_eq (board.get ⟨ri, hlt⟩) color ri hrowlen
      (List.range 8) (fun c hc => List.mem_range.mp hc)
    have hsq : ∀ ci : Nat, squareAtD board (ci : Int) (ri : Int) =
        ((board.get ⟨ri, hlt⟩).get? ci).getD none := by
      intro ci
      unfold squareAtD
      rw [squareAt_natCast board ci ri, hget]
    simp only [collect_rows, hget, ih (fun c hc => hall c (by simp [hc])),
      hcols, List.flatMap_cons]
    congr 2
    refine List.filterMap_congr ?_
    intro ci _
    rw [hsq ci]

lemma mem_row_order (color : Color) (ri : Nat) :
    ri ∈ row_order color ↔ ri < 8 := by
  unfold row_order
  split
  · rw [List.mem_reverse, List.mem_range]
  · rw [List.mem_range]

/-- C9: on a well-formed board, `find_pieces` returns exactly the sequence
described by spec §4.5 (`collectSpec`): all 64 squares are scanned, rows from
7 down to 0 for black and from 0 up to 7 for white, columns left to right
within a row, keeping exactly one `Piece` per occupant of the requested color
— a piece is collected precisely when its square holds a matching occupant. -/
theorem find_pieces_follows_spec (board : Board) (color : Color)
    (hWF : board.WF) :
    find_pieces board color = some (collectSpec board color) ∧
    row_order Color.black = [7, 6, 5, 4, 3, 2, 1, 0] ∧
    row_order Color.white = [0, 1, 2, 3, 4, 5, 6, 7] ∧
    ∀ p : Piece, p ∈ collectSpec board color ↔
      (p.color = color ∧ ∃ ci ri : Nat, ci < 8 ∧ ri < 8 ∧
        p.column = (ci : Int) ∧ p.row = (ri : Int) ∧
        squareAtD board (ci : Int) (ri : Int) = some (color, p.name)) := by
  refine ⟨?_, by decide, by decide, ?_⟩
  · unfold find_pieces collectSpec
    exact collect_rows_eq board color hWF (row_order color)
      (fun ri hri => (mem_row_order color ri).mp hri)
  · intro p
    constructor
    · intro hp
      unfold collectSpec at hp
      rw [List.mem_flatMap] at hp
      obtain ⟨ri, hri, hp⟩ := hp
      rw [List.mem_filterMap] at hp
      obtain ⟨ci, hci, heq⟩ := hp
      have hci8 : ci < 8 := List.mem_range.mp hci
      have hri8 : ri < 8 := (mem_row_order color ri).mp hri
      rcases hsq : squareAtD board (ci : Int) (ri : Int) with _ | ⟨oc, k⟩
      · rw [hsq] at heq
        exact Option.noConfusion heq
      · rw [hsq] at heq
        have heq2 : (if oc = color then
            some (Piece.mk color k (ci : Int) (ri : Int)) else none) = some p := heq
        by_cases hoc : oc = color
        · rw [if_pos hoc] at heq2
          obtain rfl := Option.some.inj heq2
          exact ⟨rfl, ci, ri, hci8, hri8, rfl, rfl, by rw [hsq, hoc]⟩
        · rw [if_neg hoc] at heq2
          exact Option.noConfusion heq2
    · rintro ⟨hcol, ci, ri, hci8, hri8, hcol2, hrow2, hsq⟩
      unfold collectSpec
      rw [List.mem_flatMap]
      refine ⟨ri, (mem_row_order color ri).mpr hri8, ?_⟩
      rw [List.mem_filterMap]
      refine ⟨ci, List.mem_range.mpr hci8, ?_⟩
      rw [hsq]
      show (if color = color then
        some (Piece.mk color p.name (ci : Int) (ri : Int)) else none) = some p
      rw [if_pos rfl]
      obtain ⟨pc, pn, pcol, prow⟩ := p
      simp only at hcol hcol2 hrow2
      rw [hcol, hcol2, hrow2]

/-- Witness for C9: collecting the white pieces of the starting board. -/
theorem find_pieces_follows_spec_witness :
    Board.WF stdBoard ∧
    find_pieces stdBoard Color.white = some (collectSpec stdBoard Color.white) ∧
    row_order Color.black = [7, 6, 5, 4, 3, 2, 1, 0] :=
  ⟨by decide, (find_pieces_follows_spec stdBoard Color.white (by decide)).1,
    (find_pieces_follows_spec stdBoard Color.white (by decide)).2.1⟩

lemma walk_eq_ray (board : Board) (piece : Piece) (dir : Int × Int)
    (maxSteps : Int) (hWF : board.WF)
    (hc0 : 0 ≤ piece.column) (hc : piece.column < 8)
    (hr0 : 0 ≤ piece.row) (hr : piece.row < 8) :
    walk board piece dir maxSteps =
      some (raySpec board piece.color dir.1 dir.2 piece.column piece.row
        maxSteps.toNat) := by
  unfold walk
  rw [walkLoop_eq_ray board piece.color dir.1 dir.2 hWF maxSteps.toNat
    piece.column piece.row [] hc0 hc hr0 hr]
  simp

lemma raySpec_one (board : Board) (color : Color) (cs rs col row : Int) :
    raySpec board color cs rs col row 1 =
      if 0 ≤ col + cs ∧ col + cs < 8 ∧ 0 ≤ row + rs ∧ row + rs < 8 then
        match squareAtD board (col + cs) (row + rs) with
        | none => [Move.mk (col + cs) (row + rs) none false]
        | some (oc, ok) =>
          if oc ≠ color then [Move.mk (col + cs) (row + rs) (some ok) false]
          else []
      else [] := rfl

lemma raySpec_two (board : Board) (color : Color) (cs rs col row : Int) :
    raySpec board color cs rs col row 2 =
      if 0 ≤ col + cs ∧ col + cs < 8 ∧ 0 ≤ row + rs ∧ row + rs < 8 then
        match squareAtD board (col + cs) (row + rs) with
        | none => Move.mk (col + cs) (row + rs) none false ::
            raySpec board color cs rs (col + cs) (row + rs) 1
        | some (oc, ok) =>
          if oc ≠ color then [Move.mk (col + cs) (row + rs) (some ok) false]
          else []
      else [] := rfl

lemma mem_raySpec_one (board : Board) (color : Color) (cs rs col row : Int)
    (m : Move) (hm : m ∈ raySpec board color cs rs col row 1) :
    m.column = col + cs ∧ m.row = row + rs := by
  rw [raySpec_one] at hm
  by_cases hC : 0 ≤ col + cs ∧ col + cs < 8 ∧ 0 ≤ row + rs ∧ row + rs < 8
  · rw [if_pos hC] at hm
    rcases hD : squareAtD board (col + cs) (row + rs) with _ | ⟨oc, ok⟩
    · rw [hD] at hm
      have hm2 : m ∈ [Move.mk (col + cs) (row + rs) none false] := hm
      rcases List.mem_singleton.mp hm2 with rfl
      exact ⟨rfl, rfl⟩
    · rw [hD] at hm
      have hm2 : m ∈ (if oc ≠ color then
          [Move.mk (col + cs) (row + rs) (some ok) false] else []) := hm
      by_cases hoc : oc ≠ color
      · rw [if_pos hoc] at hm2
        rcases List.mem_singleton.mp hm2 with rfl
        exact ⟨rfl, rfl⟩
      · rw [if_neg hoc] at hm2
        exact absurd hm2 (List.not_mem_nil m)
  · rw [if_neg hC] at hm
    exact absurd hm (List.not_mem_nil m)

lemma mem_raySpec_two (board : Board) (color : Color) (cs rs col row : Int)
    (m : Move) (hm : m ∈ raySpec board color cs rs col row 2) :
    (m.column = col + cs ∧ m.row = row + rs) ∨
      (m.column = col + cs + cs ∧ m.row = row + rs + rs) := by
  rw [raySpec_two] at hm
  by_cases hC : 0 ≤ col + cs ∧ col + cs < 8 ∧ 0 ≤ row + rs ∧ row + rs < 8
  · rw [if_pos hC] at hm
    rcases hD : squareAtD board (col + cs) (row + rs) with _ | ⟨oc, ok⟩
    · rw [hD] at hm
      have hm2 : m ∈ Move.mk (col + cs) (row + rs) none false ::
          raySpec board color cs rs (col + cs) (row + rs) 1 := hm
      rcases List.mem_cons.mp hm2 with rfl | hm3
      · exact Or.inl ⟨rfl, rfl⟩
      · exact Or.inr (mem_raySpec_one board color cs rs (col + cs) (row + rs) m hm3)
    · rw [hD] at hm
      have hm2 : m ∈ (if oc ≠ color then
          [Move.mk (col + cs) (row + rs) (some ok) false] else []) := hm
      by_cases hoc : oc ≠ color
      · rw [if_pos hoc] at hm2
        rcases List.mem_singleton.mp hm2 with rfl
        exact Or.inl ⟨rfl, rfl⟩
      · rw [if_neg hoc] at hm2
        exact absurd hm2 (List.not_mem_nil m)
  · rw [if_neg hC] at hm
    exact absurd hm (List.not_mem_nil m)

lemma ray_one_filter_cap (board : Board) (color : Color) (cs rs col row : Int) :
    (raySpec board color cs rs col row 1).filter (fun m => m.capture ≠ none) =
      if 0 ≤ col + cs ∧ col + cs < 8 ∧ 0 ≤ row + rs ∧ row + rs < 8 then
        match squareAtD board (col + cs) (row + rs) with
        | none => []
        | some (oc, ok) =>
          if oc ≠ color then [Move.mk (col + cs) (row + rs) (some ok) false]
          else []
      else [] := by
  rw [raySpec_one]
  by_cases hC : 0 ≤ col + cs ∧ col + cs < 8 ∧ 0 ≤ row + rs ∧ row + rs < 8
  · simp only [if_pos hC]
    rcases hD : squareAtD board (col + cs) (row + rs) with _ | ⟨oc, ok⟩
    · simp
    · by_cases hoc : oc ≠ color
      · simp [hoc]
      · simp [hoc]
  · simp [if_neg hC]

lemma ray_one_filter_noncap (board : Board) (color : Color) (cs rs col row : Int) :
    (raySpec board color cs rs col row 1).filter (fun m => m.capture = none) =
      if 0 ≤ col + cs ∧ col + cs < 8 ∧ 0 ≤ row + rs ∧ row + rs < 8 then
        match squareAtD board (col + cs) (row + rs) with
        | none => [Move.mk (col + cs) (row + rs) none false]
        | some _ => []
      else [] := by
  rw [raySpec_one]
  by_cases hC : 0 ≤ col + cs ∧ col + cs < 8 ∧ 0 ≤ row + rs ∧ row + rs < 8
  · simp only [if_pos hC]
    rcases hD : squareAtD board (col + cs) (row + rs) with _ | ⟨oc, ok⟩
    · simp
    · by_cases hoc : oc ≠ color
      · simp [hoc]
      · simp [hoc]
  · simp [if_neg hC]

lemma ray_two_filter_noncap (board : Board) (color : Color) (cs rs col row : Int) :
    (raySpec board color cs rs col row 2).filter (fun m => m.capture = none) =
      if 0 ≤ col + cs ∧ col + cs < 8 ∧ 0 ≤ row + rs ∧ row + rs < 8 then
        match squareAtD board (col + cs) (row + rs) with
        | none => Move.mk (col + cs) (row + rs) none false ::
            (raySpec board color cs rs (col + cs) (row + rs) 1).filter
              (fun m => m.capture = none)
        | some _ => []
      else [] := by
  rw [raySpec_two]
  by_cases hC : 0 ≤ col + cs ∧ col + cs < 8 ∧ 0 ≤ row + rs ∧ row + rs < 8
  · simp only [if_pos hC]
    rcases hD : squareAtD board (col + cs) (row + rs) with _ | ⟨oc, ok⟩
    · simp
    · by_cases hoc : oc ≠ color
      · simp [hoc]
      · simp [hoc]
  · simp [if_neg hC]

lemma pawn_go_eq (board : Board) (piece : Piece) (dr pr md : Int)
    (hWF : board.WF) (hc0 : 0 ≤ piece.column) (hc : piece.column < 8)
    (hr0 : 0 ≤ piece.row) (hr : piece.row < 8) :
    pawn_go board piece (0, dr) [(1, dr), (-1, dr)] pr md =
      some (mark_promotions pr
        ((raySpec board piece.color 0 dr piece.column piece.row md.toNat).filter
            (fun m => m.capture = none) ++
          ((raySpec board piece.color 1 dr piece.column piece.row 1).filter
              (fun m => m.capture ≠ none) ++
            ((raySpec board piece.color (-1) dr piece.column piece.row 1).filter
                (fun m => m.capture ≠ none) ++ [])))) := by
  unfold pawn_go
  simp only [capture_walks]
  rw [walk_eq_ray board piece (0, dr) md hWF hc0 hc hr0 hr]
  rw [walk_eq_ray board piece (1, dr) 1 hWF hc0 hc hr0 hr]
  rw [walk_eq_ray board piece ((-1), dr) 1 hWF hc0 hc hr0 hr]
  rfl

lemma mark_fun_fields (pr : Int) (m0 : Move) :
    (if m0.row = pr then Move.mk m0.column m0.row m0.capture true else m0).column
        = m0.column ∧
    (if m0.row = pr then Move.mk m0.column m0.row m0.capture true else m0).row
        = m0.row ∧
    (if m0.row = pr then Move.mk m0.column m0.row m0.capture true else m0).capture
        = m0.capture := by
  split
  · exact ⟨rfl, rfl, rfl⟩
  · exact ⟨rfl, rfl, rfl⟩

lemma mem_mark_promotions (pr : Int) (base : List Move) (m : Move)
    (hm : m ∈ mark_promotions pr base) :
    ∃ m0 ∈ base, m.column = m0.column ∧ m.row = m0.row ∧ m.capture = m0.capture := by
  unfold mark_promotions at hm
  rcases List.mem_map.mp hm with ⟨m0, hm0, hfm⟩
  refine ⟨m0, hm0, ?_⟩
  rw [← hfm]
  exact mark_fun_fields pr m0

lemma mark_mem_of_mem (pr : Int) (base : List Move) (m0 : Move)
    (hm0 : m0 ∈ base) :
    ∃ m ∈ mark_promotions pr base,
      m.column = m0.column ∧ m.row = m0.row ∧ m.capture = m0.capture := by
  unfold mark_promotions
  exact ⟨_, List.mem_map_of_mem _ hm0, mark_fun_fields pr m0⟩

lemma exists_mem_append_iff {α : Type} (l1 l2 : List α) (Q : α → Prop) :
    (∃ a ∈ l1 ++ l2, Q a) ↔ (∃ a ∈ l1, Q a) ∨ (∃ a ∈ l2, Q a) := by
  constructor
  · rintro ⟨a, ha, hQ⟩
    rcases List.mem_append.mp ha with h | h
    · exact Or.inl ⟨a, h, hQ⟩
    · exact Or.inr ⟨a, h, hQ⟩
  · rintro (⟨a, ha, hQ⟩ | ⟨a, ha, hQ⟩)
    · exact ⟨a, List.mem_append_left l2 ha, hQ⟩
    · exact ⟨a, List.mem_append_right l1 ha, hQ⟩

lemma exists_mark_iff (pr : Int) (base : List Move)
    (P : Int → Int → Option Kind → Prop) :
    (∃ m ∈ mark_promotions pr base, P m.column m.row m.capture) ↔
      (∃ m0 ∈ base, P m0.column m0.row m0.capture) := by
  constructor
  · rintro ⟨m, hm, hP⟩
    obtain ⟨m0, hm0, h1, h2, h3⟩ := mem_mark_promotions pr base m hm
    exact ⟨m0, hm0, by rwa [h1, h2, h3] at hP⟩
  · rintro ⟨m0, hm0, hP⟩
    obtain ⟨m, hm, h1, h2, h3⟩ := mark_mem_of_mem pr base m0 hm0
    refine ⟨m, hm, ?_⟩
    rwa [h1, h2, h3]

lemma cap_filter_mem_iff (board : Board) (color : Color) (dc dr col row : Int)
    (m0 : Move) :
    m0 ∈ (raySpec board color dc dr col row 1).filter (fun m => m.capture ≠ none) ↔
      (0 ≤ col + dc ∧ col + dc < 8 ∧ 0 ≤ row + dr ∧ row + dr < 8 ∧
        ∃ oc k, squareAtD board (col + dc) (row + dr) = some (oc, k) ∧
          oc ≠ color ∧ m0 = Move.mk (col + dc) (row + dr) (some k) false) := by
  rw [ray_one_filter_cap]
  by_cases hC : 0 ≤ col + dc ∧ col + dc < 8 ∧ 0 ≤ row + dr ∧ row + dr < 8
  · rw [if_pos hC]
    rcases hsq : squareAtD board (col + dc) (row + dr) with _ | ⟨oc, k⟩
    · constructor
      · intro hm
        have hm2 : m0 ∈ ([] : List Move) := hm
        exact absurd hm2 (List.not_mem_nil m0)
      · rintro ⟨-, -, -, -, oc2, k2, heq, -, -⟩
        exact Option.noConfusion heq
    · by_cases hoc : oc ≠ color
      · constructor
        · intro hm
          have hm2 : m0 ∈ (if oc ≠ color then
              [Move.mk (col + dc) (row + dr) (some k) false] else []) := hm
          rw [if_pos hoc] at hm2
          rcases List.mem_singleton.mp hm2 with rfl
          exact ⟨hC.1, hC.2.1, hC.2.2.1, hC.2.2.2, oc, k, rfl, hoc, rfl⟩
        · rintro ⟨-, -, -, -, oc2, k2, heq, -, rfl⟩
          simp only [Option.some.injEq, Prod.mk.injEq] at heq
          have hmem : Move.mk (col + dc) (row + dr) (some k2) false ∈
              (if oc ≠ color then
                [Move.mk (col + dc) (row + dr) (some k) false] else []) := by
            rw [if_pos hoc, heq.2]
            exact List.mem_singleton.mpr rfl
          exact hmem
      · constructor
        · intro hm
          have hm2 : m0 ∈ (if oc ≠ color then
              [Move.mk (col + dc) (row + dr) (some k) false] else []) := hm
          rw [if_neg hoc] at hm2
          exact absurd hm2 (List.not_mem_nil m0)
        · rintro ⟨-, -, -, -, oc2, k2, heq, hoc2, -⟩
          simp only [Option.some.injEq, Prod.mk.injEq] at heq
          rw [← heq.1] at hoc2
          exact absurd (not_not.mp hoc) hoc2
  · rw [if_neg hC]
    constructor
    · intro hm
      exact absurd hm (List.not_mem_nil m0)
    · rintro ⟨h1, h2, h3, h4, -⟩
      exact absurd ⟨h1, h2, h3, h4⟩ hC

lemma fwd_filter_mem_iff_one (board : Board) (color : Color) (dr col row : Int)
    (m0 : Move) :
    m0 ∈ (raySpec board color 0 dr col row 1).filter (fun m => m.capture = none) ↔
      (0 ≤ col ∧ col < 8 ∧ 0 ≤ row + dr ∧ row + dr < 8 ∧
        squareAtD board col (row + dr) = none ∧
        m0 = Move.mk col (row + dr) none false) := by
  rw [ray_one_filter_noncap]
  simp only [add_zero]
  by_cases hC : 0 ≤ col ∧ col < 8 ∧ 0 ≤ row + dr ∧ row + dr < 8
  · rw [if_pos hC]
    rcases hsq : squareAtD board col (row + dr) with _ | ⟨oc, k⟩
    · constructor
      · intro hm
        have hm2 : m0 ∈ [Move.mk col (row + dr) none false] := hm
        rcases List.mem_singleton.mp hm2 with rfl
        exact ⟨hC.1, hC.2.1, hC.2.2.1, hC.2.2.2, rfl, rfl⟩
      · rintro ⟨-, -, -, -, -, rfl⟩
        have hmem : Move.mk col (row + dr) none false ∈
            [Move.mk col (row + dr) none false] := List.mem_singleton.mpr rfl
        exact hmem
    · constructor
      · intro hm
        have hm2 : m0 ∈ ([] : List Move) := hm
        exact absurd hm2 (List.not_mem_nil m0)
      · rintro ⟨-, -, -, -, heq, -⟩
        exact Option.noConfusion heq
  · rw [if_neg hC]
    constructor
    · intro hm
      exact absurd hm (List.not_mem_nil m0)
    · rintro ⟨h1, h2, h3, h4, -⟩
      exact absurd ⟨h1, h2, h3, h4⟩ hC

lemma fwd_filter_mem_iff_two (board : Board) (color : Color) (dr col row : Int)
    (m0 : Move) :
    m0 ∈ (raySpec board color 0 dr col row 2).filter (fun m => m.capture = none) ↔
      ((0 ≤ col ∧ col < 8 ∧ 0 ≤ row + dr ∧ row + dr < 8 ∧
        squareAtD board col (row + dr) = none) ∧
        (m0 = Move.mk col (row + dr) none false ∨
          (0 ≤ row + dr + dr ∧ row + dr + dr < 8 ∧
            squareAtD board col (row + dr + dr) = none ∧
            m0 = Move.mk col (row + dr + dr) none false))) := by
  rw [ray_two_filter_noncap]
  simp only [add_zero]
  by_cases hC : 0 ≤ col ∧ col < 8 ∧ 0 ≤ row + dr ∧ row + dr < 8
  · rw [if_pos hC]
    rcases hsq : squareAtD board col (row + dr) with _ | ⟨oc, k⟩
    · constructor
      · intro hm
        have hm2 : m0 ∈ Move.mk col (row + dr) none false ::
            (raySpec board color 0 dr col (row + dr) 1).filter
              (fun m => m.capture = none) := hm
        rcases List.mem_cons.mp hm2 with rfl | hm3
        · exact ⟨⟨hC.1, hC.2.1, hC.2.2.1, hC.2.2.2, rfl⟩, Or.inl rfl⟩
        · obtain ⟨-, -, h3, h4, h5, h6⟩ :=
            (fwd_filter_mem_iff_one board color dr col (row + dr) m0).mp hm3
          exact ⟨⟨hC.1, hC.2.1, hC.2.2.1, hC.2.2.2, rfl⟩, Or.inr ⟨h3, h4, h5, h6⟩⟩
      · rintro ⟨-, rfl | ⟨h3, h4, h5, rfl⟩⟩
        · have hmem : Move.mk col (row + dr) none false ∈
              Move.mk col (row + dr) none false ::
                (raySpec board color 0 dr col (row + dr) 1).filter
                  (fun m => m.capture = none) := List.mem_cons_self _ _
          exact hmem
        · have hmem : Move.mk col (row + dr + dr) none false ∈
              Move.mk col (row + dr) none false ::
                (raySpec board color 0 dr col (row + dr) 1).filter
                  (fun m => m.capture = none) :=
            List.mem_cons_of_mem _
              ((fwd_filter_mem_iff_one board color dr col (row + dr) _).mpr
                ⟨hC.1, hC.2.1, h3, h4, h5, rfl⟩)
          exact hmem
    · constructor
      · intro hm
        have hm2 : m0 ∈ ([] : List Move) := hm
        exact absurd hm2 (List.not_mem_nil m0)
      · rintro ⟨⟨-, -, -, -, heq⟩, -⟩
        exact Option.noConfusion heq
  · rw [if_neg hC]
    constructor
    · intro hm
      exact absurd hm (List.not_mem_nil m0)
    · rintro ⟨⟨h1, h2, h3, h4, -⟩, -⟩
      exact absurd ⟨h1, h2, h3, h4⟩ hC

lemma pawn_go_correct (board : Board) (piece : Piece) (dr pr md : Int)
    (hWF : board.WF) (hc0 : 0 ≤ piece.column) (hc : piece.column < 8)
    (hr0 : 0 ≤ piece.row) (hr : piece.row < 8)
    (hdr : dr = 1 ∨ dr = -1) (hmd : md = 1 ∨ md = 2) :
    ∃ ms, pawn_go board piece (0, dr) [(1, dr), (-1, dr)] pr md = some ms ∧
      ((∃ m ∈ ms, m.capture = none ∧ m.row = piece.row + 2 * dr) ↔
        (md = 2 ∧ 0 ≤ piece.row + dr ∧ piece.row + dr < 8 ∧
          squareAtD board piece.column (piece.row + dr) = none ∧
          0 ≤ piece.row + 2 * dr ∧ piece.row + 2 * dr < 8 ∧
          squareAtD board piece.column (piece.row + 2 * dr) = none)) ∧
      (∀ dc : Int, dc = 1 ∨ dc = -1 →
        ((∃ m ∈ ms, m.column = piece.column + dc ∧ m.row = piece.row + dr) ↔
          (0 ≤ piece.column + dc ∧ piece.column + dc < 8 ∧
            0 ≤ piece.row + dr ∧ piece.row + dr < 8 ∧
            ∃ oc k, squareAtD board (piece.column + dc) (piece.row + dr) =
              some (oc, k) ∧ oc ≠ piece.color))) := by
  refine ⟨_, pawn_go_eq board piece dr pr md hWF hc0 hc hr0 hr, ?_, ?_⟩
  · refine Iff.trans (exists_mark_iff pr _
      (fun c r cap => cap = none ∧ r = piece.row + 2 * dr)) ?_
    rw [exists_mem_append_iff, exists_mem_append_iff, exists_mem_append_iff]
    constructor
    · rintro (hF | hC1 | hC2 | hnil)
      · obtain ⟨m0, hm0, hcap, hrow⟩ := hF
        rcases hmd with rfl | rfl
        · have hm1 : m0 ∈ (raySpec board piece.color 0 dr piece.column
              piece.row 1).filter (fun m => m.capture = none) := hm0
          obtain ⟨-, -, -, -, -, rfl⟩ :=
            (fwd_filter_mem_iff_one board piece.color dr piece.column
              piece.row m0).mp hm1
          have hrow2 : piece.row + dr = piece.row + 2 * dr := hrow
          exfalso
          rcases hdr with rfl | rfl <;> omega
        · have hm1 : m0 ∈ (raySpec board piece.color 0 dr piece.column
              piece.row 2).filter (fun m => m.capture = none) := hm0
          obtain ⟨⟨-, -, h3, h4, h5⟩, hor⟩ :=
            (fwd_filter_mem_iff_two board piece.color dr piece.column
              piece.row m0).mp hm1
          rcases hor with rfl | ⟨h6, h7, h8, rfl⟩
          · have hrow2 : piece.row + dr = piece.row + 2 * dr := hrow
            exfalso
            rcases hdr with rfl | rfl <;> omega
          · refine ⟨rfl, h3, h4, h5, by omega, by omega, ?_⟩
            have he : piece.row + 2 * dr = piece.row + dr + dr := by ring
            rw [he]
            exact h8
      · obtain ⟨m0, hm0, hcap, -⟩ := hC1
        obtain ⟨-, -, -, -, oc, k, -, -, rfl⟩ :=
          (cap_filter_mem_iff board piece.color 1 dr piece.column
            piece.row m0).mp hm0
        exact Option.noConfusion hcap
      · obtain ⟨m0, hm0, hcap, -⟩ := hC2
        obtain ⟨-, -, -, -, oc, k, -, -, rfl⟩ :=
          (cap_filter_mem_iff board piece.color (-1) dr piece.column
            piece.row m0).mp hm0
        exact Option.noConfusion hcap
      · obtain ⟨m0, hm0, -⟩ := hnil
        exact absurd hm0 (List.not_mem_nil m0)
    · rintro ⟨rfl, h1, h2, h3, h4, h5, h6⟩
      refine Or.inl ⟨Move.mk piece.column (piece.row + dr + dr) none false,
        ?_, rfl, by show piece.row + dr + dr = piece.row + 2 * dr; ring⟩
      have hmem : Move.mk piece.column (piece.row + dr + dr) none false ∈
          (raySpec board piece.color 0 dr piece.column piece.row 2).filter
            (fun m => m.capture = none) := by
        refine (fwd_filter_mem_iff_two board piece.color dr piece.column
          piece.row _).mpr ⟨⟨hc0, hc, h1, h2, h3⟩, Or.inr ⟨by omega, by omega, ?_, rfl⟩⟩
        have he : piece.row + dr + dr = piece.row + 2 * dr := by ring
        rw [he]
        exact h6
      exact hmem
  · intro dc hdc
    refine Iff.trans (exists_mark_iff pr _
      (fun c r cap => c = piece.column + dc ∧ r = piece.row + dr)) ?_
    rw [exists_mem_append_iff, exists_mem_append_iff, exists_mem_append_iff]
    have hFfalse : ¬ ∃ m0 ∈ (raySpec board piece.color 0 dr piece.column
        piece.row md.toNat).filter (fun m => m.capture = none),
        m0.column = piece.column + dc ∧ m0.row = piece.row + dr := by
      rintro ⟨m0, hm0, hcm, -⟩
      rcases hmd with rfl | rfl
      · have hm1 : m0 ∈ (raySpec board piece.color 0 dr piece.column
            piece.row 1).filter (fun m => m.capture = none) := hm0
        obtain ⟨-, -, -, -, -, rfl⟩ :=
          (fwd_filter_mem_iff_one board piece.color dr piece.column
            piece.row m0).mp hm1
        have hcm2 : piece.column = piece.column + dc := hcm
        rcases hdc with rfl | rfl <;> omega
      · have hm1 : m0 ∈ (raySpec board piece.color 0 dr piece.column
            piece.row 2).filter (fun m => m.capture = none) := hm0
        obtain ⟨-, hor⟩ :=
          (fwd_filter_mem_iff_two board piece.color dr piece.column
            piece.row m0).mp hm1
        rcases hor with rfl | ⟨-, -, -, rfl⟩
        · have hcm2 : piece.column = piece.column + dc := hcm
          rcases hdc with rfl | rfl <;> omega
        · have hcm2 : piece.column = piece.column + dc := hcm
          rcases hdc with rfl | rfl <;> omega
    rcases hdc with rfl | rfl
    · have hC2false : ¬ ∃ m0 ∈ (raySpec board piece.color (-1) dr piece.column
          piece.row 1).filter (fun m => m.capture ≠ none),
          m0.column = piece.column + 1 ∧ m0.row = piece.row + dr := by
        rintro ⟨m0, hm0, hcm, -⟩
        obtain ⟨-, -, -, -, oc, k, -, -, rfl⟩ :=
          (cap_filter_mem_iff board piece.color (-1) dr piece.column
            piece.row m0).mp hm0
        have hcm2 : piece.column + (-1) = piece.column + 1 := hcm
        omega
      constructor
      · rintro (hF | hC1 | hC2 | hnil)
        · exact absurd hF hFfalse
        · obtain ⟨m0, hm0, -, -⟩ := hC1
          obtain ⟨h1, h2, h3, h4, oc, k, h5, h6, -⟩ :=
            (cap_filter_mem_iff board piece.color 1 dr piece.column
              piece.row m0).mp hm0
          exact ⟨h1, h2, h3, h4, oc, k, h5, h6⟩
        · exact absurd hC2 hC2false
        · obtain ⟨m0, hm0, -⟩ := hnil
          exact absurd hm0 (List.not_mem_nil m0)
      · rintro ⟨h1, h2, h3, h4, oc, k, h5, h6⟩
        refine Or.inr (Or.inl ⟨Move.mk (piece.column + 1) (piece.row + dr)
          (some k) false, ?_, rfl, rfl⟩)
        exact (cap_filter_mem_iff board piece.color 1 dr piece.column
          piece.row _).mpr ⟨h1, h2, h3, h4, oc, k, h5, h6, rfl⟩
    · have hC1false : ¬ ∃ m0 ∈ (raySpec board piece.color 1 dr piece.column
          piece.row 1).filter (fun m => m.capture ≠ none),
          m0.column = piece.column + (-1) ∧ m0.row = piece.row + dr := by
        rintro ⟨m0, hm0, hcm, -⟩
        obtain ⟨-, -, -, -, oc, k, -, -, rfl⟩ :=
          (cap_filter_mem_iff board piece.color 1 dr piece.column
            piece.row m0).mp hm0
        have hcm2 : piece.column + 1 = piece.column + (-1) := hcm
        omega
      constructor
      · rintro (hF | hC1 | hC2 | hnil)
        · exact absurd hF hFfalse
        · exact absurd hC1 hC1false
        · obtain ⟨m0, hm0, -, -⟩ := hC2
          obtain ⟨h1, h2, h3, h4, oc, k, h5, h6, -⟩ :=
            (cap_filter_mem_iff board piece.color (-1) dr piece.column
              piece.row m0).mp hm0
          exact ⟨h1, h2, h3, h4, oc, k, h5, h6⟩
        · obtain ⟨m0, hm0, -⟩ := hnil
          exact absurd hm0 (List.not_mem_nil m0)
      · rintro ⟨h1, h2, h3, h4, oc, k, h5, h6⟩
        refine Or.inr (Or.inr (Or.inl ⟨Move.mk (piece.column + (-1))
          (piece.row + dr) (some k) false, ?_, rfl, rfl⟩))
        exact (cap_filter_mem_iff board piece.color (-1) dr piece.column
          piece.row _).mpr ⟨h1, h2, h3, h4, oc, k, h5, h6, rfl⟩

/-- Forward row direction per color: white advances toward row 0, black
toward row 7 (the `basic_path` row deltas of `pawn_moves`). -/
def forward_dir (c : Color) : Int :=
  if c = Color.white then -1 else 1

/-- Starting row per color (the `max_distance = 2` condition of
`pawn_moves`): row 6 for white, row 1 for black. -/
def start_row (c : Color) : Int :=
  if c = Color.white then 6 else 1

/-- The opposing color. -/
def opposite (c : Color) : Color :=
  if c = Color.white then Color.black else Color.white

/-- C4: for every well-formed board and every pawn on it, `pawn_moves`
(a) emits non-capturing moves only onto empty squares, (b) emits the 2-square
forward advance exactly when the pawn stands on its starting row (6 for
white, 1 for black) and both the intermediate and the destination squares
are empty, and (c) emits a forward-diagonal move (to column ±1) exactly when
the target square is on the board and holds an opposing piece. -/
theorem pawn_rule_correct (board : Board) (piece : Piece) (hWF : board.WF)
    (hc0 : 0 ≤ piece.column) (hc : piece.column < 8)
    (hr0 : 0 ≤ piece.row) (hr : piece.row < 8) :
    ∃ ms, pawn_moves board piece = some ms ∧
      (∀ m ∈ ms, m.capture = none →
        squareAt board m.column m.row = some none) ∧
      ((∃ m ∈ ms, m.capture = none ∧
          m.row = piece.row + 2 * forward_dir piece.color) ↔
        (piece.row = start_row piece.color ∧
          squareAt board piece.column
            (piece.row + forward_dir piece.color) = some none ∧
          squareAt board piece.column
            (piece.row + 2 * forward_dir piece.color) = some none)) ∧
      (∀ dc : Int, dc = 1 ∨ dc = -1 →
        ((∃ m ∈ ms, m.column = piece.column + dc ∧
            m.row = piece.row + forward_dir piece.color) ↔
          (inBoardRange (piece.column + dc)
              (piece.row + forward_dir piece.color) ∧
            ∃ k, squareAt board (piece.column + dc)
                (piece.row + forward_dir piece.color) =
              some (some (opposite piece.color, k))))) := by
  by_cases hw : piece.color = Color.white
  · have hfd : forward_dir piece.color = -1 := by
      unfold forward_dir
      rw [if_pos hw]
    have hsr : start_row piece.color = 6 := by
      unfold start_row
      rw [if_pos hw]
    have hop : opposite piece.color = Color.black := by
      unfold opposite
      rw [if_pos hw]
    rw [hfd, hsr, hop]
    obtain ⟨ms, hms, hiff2, hiff3⟩ := pawn_go_correct board piece (-1) 0
      (if piece.row = 6 then 2 else 1) hWF hc0 hc hr0 hr (Or.inr rfl)
      (by
        by_cases hrow : piece.row = 6
        · rw [if_pos hrow]
          exact Or.inr rfl
        · rw [if_neg hrow]
          exact Or.inl rfl)
    refine ⟨ms, ?_, ?_, ?_, ?_⟩
    · unfold pawn_moves
      rw [if_pos hw]
      exact hms
    · intro m hm hcap
      exact (pawn_go_emit board piece _ _ _ _ ms hms m hm).1.2.1 hcap
    · rw [hiff2]
      constructor
      · rintro ⟨hmd2, h1, h2, h3, h4, h5, h6⟩
        have hrow6 : piece.row = 6 := by
          by_cases hrow : piece.row = 6
          · exact hrow
          · rw [if_neg hrow] at hmd2
            norm_num at hmd2
        refine ⟨hrow6, ?_, ?_⟩
        · rw [squareAt_some board piece.column (piece.row + -1) hWF hc0 hc
            (by omega) (by omega), h3]
        · rw [squareAt_some board piece.column (piece.row + 2 * -1) hWF hc0 hc
            (by omega) (by omega), h6]
      · rintro ⟨hrow6, hsq1, hsq2⟩
        rw [squareAt_some board piece.column (piece.row + -1) hWF hc0 hc
          (by omega) (by omega)] at hsq1
        rw [squareAt_some board piece.column (piece.row + 2 * -1) hWF hc0 hc
          (by omega) (by omega)] at hsq2
        simp only [Option.some.injEq] at hsq1 hsq2
        exact ⟨by rw [if_pos hrow6], by omega, by omega, hsq1,
          by omega, by omega, hsq2⟩
    · intro dc hdc
      rw [hiff3 dc hdc]
      unfold inBoardRange
      constructor
      · rintro ⟨h1, h2, h3, h4, oc, k, h5, h6⟩
        refine ⟨⟨h1, h2, h3, h4⟩, k, ?_⟩
        rw [squareAt_some board (piece.column + dc) (piece.row + -1) hWF
          h1 h2 h3 h4, h5]
        have hob : oc = Color.black := by
          cases oc
          · rw [hw] at h6
            exact absurd rfl h6
          · rfl
        rw [hob]
      · rintro ⟨⟨h1, h2, h3, h4⟩, k, h5⟩
        rw [squareAt_some board (piece.column + dc) (piece.row + -1) hWF
          h1 h2 h3 h4] at h5
        simp only [Option.some.injEq] at h5
        refine ⟨h1, h2, h3, h4, Color.black, k, h5, ?_⟩
        rw [hw]
        exact fun hcon => Color.noConfusion hcon
  · have hb : piece.color = Color.black := by
      cases hcc : piece.color
      · exact absurd hcc hw
      · rfl
    have hfd : forward_dir piece.color = 1 := by
      unfold forward_dir
      rw [if_neg hw]
    have hsr : start_row piece.color = 1 := by
      unfold start_row
      rw [if_neg hw]
    have hop : opposite piece.color = Color.white := by
      unfold opposite
      rw [if_neg hw]
    rw [hfd, hsr, hop]
    obtain ⟨ms, hms, hiff2, hiff3⟩ := pawn_go_correct board piece 1 7
      (if piece.row = 1 then 2 else 1) hWF hc0 hc hr0 hr (Or.inl rfl)
      (by
        by_cases hrow : piece.row = 1
        · rw [if_pos hrow]
          exact Or.inr rfl
        · rw [if_neg hrow]
          exact Or.inl rfl)
    refine ⟨ms, ?_, ?_, ?_, ?_⟩
    · unfold pawn_moves
      rw [if_neg hw]
      exact hms
    · intro m hm hcap
      exact (pawn_go_emit board piece _ _ _ _ ms hms m hm).1.2.1 hcap
    · rw [hiff2]
      constructor
      · rintro ⟨hmd2, h1, h2, h3, h4, h5, h6⟩
        have hrow1 : piece.row = 1 := by
          by_cases hrow : piece.row = 1
          · exact hrow
          · rw [if_neg hrow] at hmd2
            norm_num at hmd2
        refine ⟨hrow1, ?_, ?_⟩
        · rw [squareAt_some board piece.column (piece.row + 1) hWF hc0 hc
            (by omega) (by omega), h3]
        · rw [squareAt_some board piece.column (piece.row + 2 * 1) hWF hc0 hc
            (by omega) (by omega), h6]
      · rintro ⟨hrow1, hsq1, hsq2⟩
        rw [squareAt_some board piece.column (piece.row + 1) hWF hc0 hc
          (by omega) (by omega)] at hsq1
        rw [squareAt_some board piece.column (piece.row + 2 * 1) hWF hc0 hc
          (by omega) (by omega)] at hsq2
        simp only [Option.some.injEq] at hsq1 hsq2
        exact ⟨by rw [if_pos hrow1], by omega, by omega, hsq1,
          by omega, by omega, hsq2⟩
    · intro dc hdc
      rw [hiff3 dc hdc]
      unfold inBoardRange
      constructor
      · rintro ⟨h1, h2, h3, h4, oc, k, h5, h6⟩
        refine ⟨⟨h1, h2, h3, h4⟩, k, ?_⟩
        rw [squareAt_some board (piece.column + dc) (piece.row + 1) hWF
          h1 h2 h3 h4, h5]
        have hob : oc = Color.white := by
          cases oc
          · rfl
          · rw [hb] at h6
            exact absurd rfl h6
        rw [hob]
      · rintro ⟨⟨h1, h2, h3, h4⟩, k, h5⟩
        rw [squareAt_some board (piece.column + dc) (piece.row + 1) hWF
          h1 h2 h3 h4] at h5
        simp only [Option.some.injEq] at h5
        refine ⟨h1, h2, h3, h4, Color.white, k, h5, ?_⟩
        rw [hb]
        exact fun hcon => Color.noConfusion hcon

/-- Witness for C4 at spec §8 scenario 2: the white pawn at `(0,6)` of the
starting board. -/
theorem pawn_rule_correct_witness :
    Board.WF stdBoard ∧
    (∃ ms, pawn_moves stdBoard (Piece.mk Color.white Kind.pawn 0 6) = some ms ∧
      (∀ m ∈ ms, m.capture = none →
        squareAt stdBoard m.column m.row = some none) ∧
      ((∃ m ∈ ms, m.capture = none ∧
          m.row = 6 + 2 * forward_dir Color.white) ↔
        ((6 : Int) = start_row Color.white ∧
          squareAt stdBoard 0 (6 + forward_dir Color.white) = some none ∧
          squareAt stdBoard 0 (6 + 2 * forward_dir Color.white) = some none)) ∧
      (∀ dc : Int, dc = 1 ∨ dc = -1 →
        ((∃ m ∈ ms, m.column = 0 + dc ∧
            m.row = 6 + forward_dir Color.white) ↔
          (inBoardRange (0 + dc) (6 + forward_dir Color.white) ∧
            ∃ k, squareAt stdBoard (0 + dc) (6 + forward_dir Color.white) =
              some (some (opposite Color.white, k)))))) :=
  ⟨by decide, pawn_rule_correct stdBoard (Piece.mk Color.white Kind.pawn 0 6)
    (by decide) (by decide) (by decide) (by decide) (by decide)⟩
